import Mathlib

/-!
Verification development for the `codeowners` aggregation tool.

The tool discovers `CODEOWNERS` files under a root directory, rewrites each
rule so that its target path is anchored at the root, and aggregates all
rewritten rules into the text of a single root-level `CODEOWNERS` file.

The definitions below are a shallow embedding of `lib.go` and `main.go`:
  - pure string helpers model the Go standard-library functions the code
    calls (`strings.SplitN`, `strings.TrimSpace`, `strings.HasPrefix`,
    `strings.HasSuffix`, `path/filepath.Clean/Join/Base/Dir/Rel` on Unix);
  - the filesystem is modelled as a finite tree `FsNode`; directory
    listings carry the filesystem's native order, and the walk sorts them
    exactly as the Go code does;
  - the gitignore library is modelled as an opaque matcher (`GitIgnore`),
    mirroring how `shouldIgnoreDir` consumes it;
  - fallible Go functions returning `(T, error)` become `Except String T`.

Strings are processed at the level of their character lists (`String.data`);
for the byte-oriented Go code this is faithful because UTF-8 preserves
codepoint order and all comparisons in the source are exact equality or
lexicographic order.
-/

namespace Codeowners

/-! ## Models of Go standard-library string functions -/

/-- Model of Go `unicode.IsSpace`: the Unicode white-space characters
recognised by `strings.TrimSpace`. -/
def goIsSpace (c : Char) : Bool :=
  c == ' ' || c == '\t' || c == '\n' || c == '\x0b' || c == '\x0c' || c == '\r' ||
  c.val == 0x85 || c.val == 0xA0 || c.val == 0x1680 ||
  (0x2000 ≤ c.val && c.val ≤ 0x200A) || c.val == 0x2028 || c.val == 0x2029 ||
  c.val == 0x202F || c.val == 0x205F || c.val == 0x3000

/-- Character-list core of Go `strings.TrimSpace`: drop white space from
both ends. -/
def goTrimSpaceL (cs : List Char) : List Char :=
  ((cs.dropWhile goIsSpace).reverse.dropWhile goIsSpace).reverse

/-- Model of Go `strings.TrimSpace`. -/
def goTrimSpace (s : String) : String := ⟨goTrimSpaceL s.data⟩

/-- Split a character list at the first space character: `none` when the
list contains no space, otherwise the parts before and after the first
space. Core of `strings.SplitN (s, " ", 2)`. -/
def breakOnSpace : List Char → Option (List Char × List Char)
  | [] => none
  | c :: cs =>
    if c == ' ' then some ([], cs)
    else
      match breakOnSpace cs with
      | none => none
      | some (a, b) => some (c :: a, b)

/-- Model of Go `strings.SplitN (s, " ", 2)`: at most two tokens, split at
the first space character only. -/
def splitN2 (s : String) : List String :=
  match breakOnSpace s.data with
  | none => [s]
  | some (a, b) => [⟨a⟩, ⟨b⟩]

/-- Model of Go `strings.HasSuffix`. -/
def goHasSuffix (s suf : String) : Bool := suf.data.isSuffixOf s.data

/-- Model of Go `strings.Split (content, sep)` for a single-character
separator, at the character-list level. `strings.Split` never returns an
empty list; splitting the empty string yields `[[]]`. -/
def goSplitChar (sep : Char) : List Char → List (List Char)
  | [] => [[]]
  | c :: cs =>
    if c == sep then [] :: goSplitChar sep cs
    else
      match goSplitChar sep cs with
      | [] => [[c]]
      | g :: gs => (c :: g) :: gs

/-! ## Models of Go `path/filepath` (Unix rules, `/` separator) -/

/-- Join path components with `/` separators (inverse of splitting). -/
def joinComps : List (List Char) → List Char
  | [] => []
  | [c] => c
  | c :: cs => c ++ '/' :: joinComps cs

/-- Component processing of Go `filepath.Clean`: the accumulator `stack`
holds the output components in reverse. Empty and `.` components are
dropped; `..` pops a component when possible, is dropped at the root of a
rooted path, and is kept when a relative path cannot backtrack further. -/
def cleanStack (rooted : Bool) : List (List Char) → List (List Char) → List (List Char)
  | stack, [] => stack
  | stack, c :: cs =>
    if c = [] ∨ c = ['.'] then cleanStack rooted stack cs
    else if c = ['.', '.'] then
      match stack with
      | [] =>
        if rooted then cleanStack rooted [] cs
        else cleanStack rooted [['.', '.']] cs
      | top :: rest =>
        if rooted = false ∧ top = ['.', '.'] then cleanStack rooted (['.', '.'] :: top :: rest) cs
        else cleanStack rooted rest cs
    else cleanStack rooted (c :: stack) cs

/-- Model of Go `filepath.Clean` (Unix): lexical path normalisation. -/
def clean (path : String) : String :=
  match path.data with
  | [] => "."
  | c :: _ =>
    let rooted := c == '/'
    let comps := goSplitChar '/' path.data
    let stack := (cleanStack rooted [] comps).reverse
    if rooted then ⟨'/' :: joinComps stack⟩
    else if stack = [] then "." else ⟨joinComps stack⟩

/-- Model of Go `filepath.Join` for two elements: skip leading empty
elements, join with `/`, and `Clean` the result. -/
def filepathJoin (a b : String) : String :=
  if a ≠ "" then clean (a ++ "/" ++ b)
  else if b ≠ "" then clean b
  else ""

/-- Model of Go `filepath.Base` (Unix): last element of the path after
dropping trailing slashes; `"."` for the empty path, `"/"` when the path
is all slashes. -/
def filepathBase (path : String) : String :=
  if path = "" then "."
  else
    let cs := (path.data.reverse.dropWhile (fun c => c == '/')).reverse
    if cs = [] then "/"
    else ⟨(cs.reverse.takeWhile (fun c => !(c == '/'))).reverse⟩

/-- Model of Go `filepath.Dir` (Unix): everything up to and including the
final slash, then `Clean`. -/
def filepathDir (path : String) : String :=
  clean ⟨(path.data.reverse.dropWhile (fun c => !(c == '/'))).reverse⟩

/-- Drop the longest common element-wise head of two component lists,
mirroring the alignment loop of Go `filepath.Rel`. -/
def dropCommonElems : List (List Char) → List (List Char) → List (List Char) × List (List Char)
  | b :: bs, t :: ts => if b = t then dropCommonElems bs ts else (b :: bs, t :: ts)
  | bs, ts => (bs, ts)

/-- Path elements of a cleaned path as used by `filepath.Rel`: a rooted
path contributes the elements after the leading slash, `"/"` and the empty
string contribute none. -/
def relElems : List Char → List (List Char)
  | [] => []
  | '/' :: rest => if rest = [] then [] else goSplitChar '/' rest
  | c :: cs => goSplitChar '/' (c :: cs)

/-- Model of Go `filepath.Rel` (Unix, no volume names): `Clean` both
paths, require agreement on rootedness, strip the common element head,
refuse to cross a remaining `..` in the base, and otherwise emit one `..`
per remaining base element followed by the remaining target elements. -/
def goRel (basepath targpath : String) : Except String String :=
  let base := clean basepath
  let targ := clean targpath
  if targ = base then .ok "."
  else
    let base := if base = "." then "" else base
    let baseSlashed := base.data.head? == some '/'
    let targSlashed := targ.data.head? == some '/'
    if baseSlashed ≠ targSlashed then
      .error ("Rel: can't make " ++ targpath ++ " relative to " ++ basepath)
    else
      let rem := dropCommonElems (relElems base.data) (relElems targ.data)
      if rem.1.head? = some ['.', '.'] then
        .error ("Rel: can't make " ++ targpath ++ " relative to " ++ basepath)
      else if rem.1 ≠ [] then
        .ok ⟨joinComps (List.replicate rem.1.length ['.', '.'] ++ rem.2)⟩
      else .ok ⟨joinComps rem.2⟩

/-! ## Constants of `lib.go` -/

/-- Reserved rule filename (`codeownersFileName` in the source). -/
def codeownersFileName : String := "CODEOWNERS"

/-- Comment marker (the source constant whose name ends in the word
"Prefix"; renamed here). Lines beginning with it are comments. -/
def codeownersCommentMarker : String := "#"

/-- Relative path of the generated output file (`generatedFileName`). -/
def generatedFileName : String := ".github/CODEOWNERS"

/-- Warning banner placed at the top of the generated file. -/
def generatedFileWarning : String := "# GENERATED FILE, DO NOT EDIT!"

/-! ## Rule classification and rewriting (`lib.go`) -/

/-- Model of `isCodeownersRule`: a line is processed unless it trims to
the empty string or literally starts with the comment marker. -/
def isCodeownersRule (line : String) : Bool :=
  let isWhitespace := goTrimSpace line == ""
  let isComment := codeownersCommentMarker.data.isPrefixOf line.data
  !isWhitespace && !isComment

/-- Model of `isDirRule`: split at the first space into at most two
tokens; the rule is a directory rule when the first token contains `@`. -/
def isDirRule (rule : String) : Bool :=
  let tokens := splitN2 rule
  decide (1 ≤ tokens.length) && (tokens.headD "").data.contains '@'

/-- Model of `rewriteDirRule`: prepend the rewritten path (or `*` when the
path is `/.`) to the unchanged rule line. -/
def rewriteDirRule (path rule : String) : String :=
  let path := if path = "/." then "*" else path
  path ++ " " ++ rule

/-- Model of `rewriteNonDirRule`: require two tokens (else drop the rule
by returning `""`), join the rewritten path with the trimmed target and
append the trimmed remainder. -/
def rewriteNonDirRule (path rule : String) : String :=
  let tokens := splitN2 rule
  if tokens.length < 2 then ""
  else
    let ruleTarget := goTrimSpace (tokens.headD "")
    let rule := goTrimSpace (tokens.getD 1 "")
    let path := filepathJoin path ruleTarget
    path ++ " " ++ rule

/-- Model of `rewriteCodeownersRule`: dispatch on `isDirRule`. The Go
function returns `(string, error)` with a `nil` error on every path. -/
def rewriteCodeownersRule (rewrittenPath rule : String) : Except String String :=
  if isDirRule rule then .ok (rewriteDirRule rewrittenPath rule)
  else .ok (rewriteNonDirRule rewrittenPath rule)

/-- Model of `rewriteCodeownersPath`: directory of the rule file, made
relative to the root, then re-anchored with a leading `/`. -/
def rewriteCodeownersPath (root path : String) : Except String String :=
  let dir := filepathDir path
  match goRel root dir with
  | .error e => .error ("can't rewrite CODEOWNERS path " ++ path ++ ": " ++ e)
  | .ok relDir => .ok ("/" ++ relDir)

/-- Model of `readCodeownersFile` on in-memory content: split on the
line-feed character. -/
def readCodeownersLines (content : String) : List String :=
  (goSplitChar '\n' content.data).map (fun cs => (⟨cs⟩ : String))

/-- Model of the line-processing loop of `processCodeownersFile`: rewrite
every rule line, abort on a rewrite error and drop empty rewrites. -/
def processLines (rewrittenPath : String) : List String → Except String (List String)
  | [] => .ok []
  | line :: rest =>
    if isCodeownersRule line then
      match rewriteCodeownersRule rewrittenPath line with
      | .error e => .error e
      | .ok rewritten =>
        match processLines rewrittenPath rest with
        | .error e => .error e
        | .ok rules => .ok (if rewritten ≠ "" then rewritten :: rules else rules)
    else processLines rewrittenPath rest

/-- Model of `processCodeownersFile` on the file's content: compute the
rewritten path of the rule file, then rewrite its lines. -/
def processCodeownersFile (root path content : String) : Except String (List String) :=
  match rewriteCodeownersPath root path with
  | .error e => .error e
  | .ok rewrittenPath => processLines rewrittenPath (readCodeownersLines content)

/-- Model of `GenerateCodeownersFile`: warning banner, blank line, the
rules joined by line feeds, trailing line feed. -/
def GenerateCodeownersFile (rules : List String) : String :=
  let body := String.intercalate "\n" rules
  generatedFileWarning ++ "\n\n" ++ body ++ "\n"

/-- Model of the tail of `main` (`main.go`): after the walk returns, a
fatal error is raised when zero rules were produced, otherwise the
generated file text is emitted. -/
def mainAfterWalk (walkResult : Except String (List String)) : Except String String :=
  match walkResult with
  | .error e => .error e
  | .ok rules =>
    if rules.length = 0 then .error "no CODEOWNER rules found"
    else .ok (GenerateCodeownersFile rules)

/-! ## Filesystem model and the traversal (`walkCodeownersFiles`) -/

/-- A filesystem node: a plain file with content, or a directory whose
entries are listed in the filesystem's native order. -/
inductive FsNode where
  | file (content : String)
  | dir (entries : List (String × FsNode))

/-- Opaque model of the `go-gitignore` matcher: its base directory and
its `Match` result (`none` models a `nil` match, `some b` a match whose
`Ignore()` is `b`). -/
structure GitIgnore where
  base : String
  matchResult : String → Option Bool

/-- Model of `shouldIgnoreDir`: a directory named `.git` is always
ignored; otherwise a `nil` matcher or the matcher's own base directory is
never ignored, and a match decides. -/
def shouldIgnoreDir (ignore : Option GitIgnore) (path : String) : Bool :=
  if filepathBase path = ".git" then true
  else
    match ignore with
    | none => false
    | some ig =>
      if ig.base = path then false
      else
        match ig.matchResult path with
        | some m => m
        | none => false

/-- Byte/codepoint lexicographic order on character lists, the order Go's
`<` uses on strings. -/
def charListLt : List Char → List Char → Bool
  | [], [] => false
  | [], _ :: _ => true
  | _ :: _, [] => false
  | a :: as, b :: bs => if a = b then charListLt as bs else decide (a < b)

/-- Name order used by the traversal's `sort.Slice` comparator. -/
def nameLt (a b : String) : Bool := charListLt a.data b.data

/-- Insert an entry into a name-sorted entry list. -/
def insertEntry (e : String × FsNode) : List (String × FsNode) → List (String × FsNode)
  | [] => [e]
  | x :: xs => if nameLt e.1 x.1 then e :: x :: xs else x :: insertEntry e xs

/-- Model of the `sort.Slice` call of `walkCodeownersFiles`: sort the
directory entries by name ascending. -/
def sortEntries : List (String × FsNode) → List (String × FsNode)
  | [] => []
  | e :: es => insertEntry e (sortEntries es)

/-- Model of `isCodeownersFile`: a non-directory entry named exactly
`CODEOWNERS`. -/
def isCodeownersFile (e : String × FsNode) : Bool :=
  match e.2 with
  | .file _ => e.1 == codeownersFileName
  | .dir _ => false

/-- What one directory entry contributes to the yield: a `CODEOWNERS`
file entry yields its joined path and content unless the path ends in the
generated file's relative path. Models the `isCodeownersFile` branch of
the entry loop in `walkCodeownersFiles`. -/
def yieldOfEntry (currentDir : String) (e : String × FsNode) : Option (String × String) :=
  if isCodeownersFile e then
    let path := filepathJoin currentDir e.1
    if goHasSuffix path generatedFileName then none
    else
      match e.2 with
      | .file content => some (path, content)
      | .dir _ => none
  else none

/-- What one directory entry contributes to the queue: a subdirectory is
enqueued under its joined path. Models the `dirEntry.IsDir()` branch of
the entry loop in `walkCodeownersFiles`. -/
def childOfEntry (currentDir : String) (e : String × FsNode) :
    Option (String × List (String × FsNode)) :=
  if isCodeownersFile e then none
  else
    match e.2 with
    | .dir ces => some (filepathJoin currentDir e.1, ces)
    | .file _ => none

/-- The `(path, content)` pairs a single directory contributes: its
sorted `CODEOWNERS` file entries, skipping any whose joined path ends in
the generated file's relative path. -/
def dirYields (currentDir : String) (es : List (String × FsNode)) : List (String × String) :=
  (sortEntries es).filterMap (yieldOfEntry currentDir)

/-- The subdirectories a single directory enqueues, in sorted order. -/
def dirChildren (currentDir : String) (es : List (String × FsNode)) :
    List (String × List (String × FsNode)) :=
  (sortEntries es).filterMap (childOfEntry currentDir)

mutual
/-- Size of a node: every file and every directory counts one. -/
def nodeSize : FsNode → Nat
  | .file _ => 1
  | .dir es => 1 + entriesSize es

/-- Total size of a listing's nodes, counting one per entry. -/
def entriesSize : List (String × FsNode) → Nat
  | [] => 0
  | (_, n) :: es => 1 + nodeSize n + entriesSize es
end

/-- Loop-iteration bound for a traversal queue: each pending directory
will be dequeued once and can enqueue fewer than `entriesSize` further
directories. -/
def queueMeasure : List (String × List (String × FsNode)) → Nat
  | [] => 0
  | (_, es) :: rest => 1 + entriesSize es + queueMeasure rest

/-- Fuelled body of the breadth-first queue loop of
`walkCodeownersFiles`: dequeue a directory, skip it if ignored, otherwise
emit its `CODEOWNERS` files and enqueue its subdirectories at the back.
With fuel at least `queueMeasure` of the queue the fuel never runs out
(`walkQueueF_fuel_stable`), so the fuelled loop is a faithful model of
the Go loop, which always terminates. -/
def walkQueueF (ignore : Option GitIgnore) :
    Nat → List (String × List (String × FsNode)) → List (String × String)
  | _, [] => []
  | 0, _ :: _ => []
  | fuel + 1, (p, es) :: rest =>
    if shouldIgnoreDir ignore p then walkQueueF ignore fuel rest
    else dirYields p es ++ walkQueueF ignore fuel (rest ++ dirChildren p es)

/-- Model of `walkCodeownersFiles`: run the queue loop from the root with
sufficient fuel, yielding the discovered rule files in traversal order. -/
def walkCodeownersFiles (root : String) (entries : List (String × FsNode))
    (ignore : Option GitIgnore) : List (String × String) :=
  walkQueueF ignore (1 + entriesSize entries) [(root, entries)]

/-- Process the walked rule files in order, aborting on the first error,
mirroring the `procFn` accumulation in `RewriteCodeownersRules`. -/
def processAll (root : String) : List (String × String) → Except String (List String)
  | [] => .ok []
  | (p, content) :: rest =>
    match processCodeownersFile root p content with
    | .error e => .error e
    | .ok rules =>
      match processAll root rest with
      | .error e => .error e
      | .ok more => .ok (rules ++ more)

/-- Model of `RewriteCodeownersRules` on a validated root: walk the tree
and concatenate each discovered file's rewritten rules. -/
def RewriteCodeownersRules (root : String) (entries : List (String × FsNode))
    (ignore : Option GitIgnore) : Except String (List String) :=
  match processAll root (walkCodeownersFiles root entries ignore) with
  | .error e => .error ("error while processing CODEOWNERS files: " ++ e)
  | .ok rules => .ok rules

/-! ## Canonical form of a tree (for determinism statements)

Two trees have the same canonical form exactly when they describe the same
files and directories with each directory's entries listed in possibly
different native orders. -/

mutual
/-- Canonical form of a node: recursively sort every directory listing. -/
def canon : FsNode → FsNode
  | .file c => .file c
  | .dir es => .dir (sortEntries (canonEntries es))

/-- Canonical form of each entry of a listing (order preserved). -/
def canonEntries : List (String × FsNode) → List (String × FsNode)
  | [] => []
  | (s, n) :: es => (s, canon n) :: canonEntries es
end

/-- Two directory listings describe the same directory up to the
filesystem's native listing order exactly when their canonical forms
coincide. -/
def listingEquiv (l₁ l₂ : List (String × FsNode)) : Prop :=
  sortEntries (canonEntries l₁) = sortEntries (canonEntries l₂)

/-- Pointwise lifting of `listingEquiv` to traversal queues: same paths,
equivalent pending listings. -/
def queueRel : List (String × List (String × FsNode)) →
    List (String × List (String × FsNode)) → Prop
  | [], [] => True
  | (p₁, es₁) :: r₁, (p₂, es₂) :: r₂ => p₁ = p₂ ∧ listingEquiv es₁ es₂ ∧ queueRel r₁ r₂
  | _, _ => False

/-! ## Definitions following the specification's words (for refinement
claims only) -/

/-- Modelled from the spec: the first token of a candidate rule line when
the line is split "on the first whitespace run", as §4.2 words it. Used
only to compare the specified classification with the implemented one. -/
def specFirstToken (line : String) : String :=
  ⟨line.data.takeWhile (fun c => !(goIsSpace c))⟩

/-! ## Supporting lemmas: tokenisation -/

theorem breakOnSpace_eq_none_or_some (cs : List Char) :
    (match breakOnSpace cs with
     | none => cs
     | some r => r.1) = cs.takeWhile (fun c => !(c == ' ')) := by
  induction cs with
  | nil => rfl
  | cons c cs ih =>
    by_cases h : c == ' '
    · simp [breakOnSpace, h, List.takeWhile]
    · simp only [breakOnSpace, h, List.takeWhile, Bool.not_false, if_false]
      revert ih
      match breakOnSpace cs with
      | none => intro ih; simpa using ih
      | some r => intro ih; simpa using ih

theorem splitN2_head (s : String) :
    (splitN2 s).headD "" = ⟨s.data.takeWhile (fun c => !(c == ' '))⟩ := by
  have h := breakOnSpace_eq_none_or_some s.data
  unfold splitN2
  revert h
  match breakOnSpace s.data with
  | none => intro h; simp only [List.headD]; exact congrArg String.mk h
  | some r => intro h; simp only [List.headD]; exact congrArg String.mk h

theorem splitN2_length_le (s : String) : (splitN2 s).length ≤ 2 := by
  unfold splitN2
  match breakOnSpace s.data with
  | none => simp
  | some r => simp

theorem breakOnSpace_of_append (a b : List Char) (ha : a.all (fun c => !(c == ' ')) = true) :
    breakOnSpace (a ++ ' ' :: b) = some (a, b) := by
  induction a with
  | nil => simp [breakOnSpace]
  | cons c cs ih =>
    simp only [List.all_cons, Bool.and_eq_true] at ha
    have hc : (c == ' ') = false := by simpa using ha.1
    simp [List.cons_append, breakOnSpace, hc, ih ha.2]

theorem splitN2_of_append (t rest : String) (ht : t.data.all (fun c => !(c == ' ')) = true) :
    splitN2 (t ++ " " ++ rest) = [t, rest] := by
  have hdata : (t ++ " " ++ rest).data = t.data ++ ' ' :: rest.data := by
    rw [String.data_append, String.data_append]
    show t.data ++ [' '] ++ rest.data = t.data ++ ' ' :: rest.data
    simp
  unfold splitN2
  rw [hdata, breakOnSpace_of_append t.data rest.data ht]

/-! ## Supporting lemmas: trimming and line skipping -/

theorem dropWhile_eq_self_of_all (p : Char → Bool) (cs : List Char)
    (h : cs.all (fun c => !(p c)) = true) : cs.dropWhile p = cs := by
  cases cs with
  | nil => rfl
  | cons c cs =>
    simp only [List.all_cons, Bool.and_eq_true] at h
    have hc : p c = false := by simpa using h.1
    simp [List.dropWhile, hc]

theorem goTrimSpaceL_of_all (cs : List Char) (h : cs.all (fun c => !(goIsSpace c)) = true) :
    goTrimSpaceL cs = cs := by
  have hrev : cs.reverse.all (fun c => !(goIsSpace c)) = true := by
    rw [List.all_reverse]
    exact h
  unfold goTrimSpaceL
  rw [dropWhile_eq_self_of_all _ _ h, dropWhile_eq_self_of_all _ _ hrev, List.reverse_reverse]

theorem goTrimSpace_of_all (s : String) (h : s.data.all (fun c => !(goIsSpace c)) = true) :
    goTrimSpace s = s := by
  unfold goTrimSpace
  rw [goTrimSpaceL_of_all s.data h]

theorem processLines_nil (p : String) : processLines p [] = .ok [] := rfl

theorem processLines_cons (p line : String) (rest : List String) :
    processLines p (line :: rest) =
      if isCodeownersRule line then
        match rewriteCodeownersRule p line with
        | .error e => .error e
        | .ok rewritten =>
          match processLines p rest with
          | .error e => .error e
          | .ok rules => .ok (if rewritten ≠ "" then rewritten :: rules else rules)
      else processLines p rest := rfl

theorem rewriteCodeownersRule_ok (p rule : String) :
    rewriteCodeownersRule p rule =
      .ok (if isDirRule rule then rewriteDirRule p rule else rewriteNonDirRule p rule) := by
  unfold rewriteCodeownersRule
  by_cases h : isDirRule rule
  · rw [if_pos h, if_pos h]
  · rw [if_neg h, if_neg h]

theorem processLines_never_errors (p : String) (lines : List String) :
    ∃ rs, processLines p lines = .ok rs := by
  induction lines with
  | nil => exact ⟨[], rfl⟩
  | cons line rest ih =>
    obtain ⟨rs, hrs⟩ := ih
    rw [processLines_cons]
    by_cases h : isCodeownersRule line
    · rw [if_pos h, rewriteCodeownersRule_ok, hrs]
      exact ⟨_, rfl⟩
    · rw [if_neg h]
      exact ⟨rs, hrs⟩

theorem processLines_skip (p line : String) (rest : List String)
    (h : isCodeownersRule line = false) :
    processLines p (line :: rest) = processLines p rest := by
  rw [processLines_cons, if_neg (by simp [h])]

theorem processLines_cons_congr (p line : String) (r₁ r₂ : List String)
    (h : processLines p r₁ = processLines p r₂) :
    processLines p (line :: r₁) = processLines p (line :: r₂) := by
  rw [processLines_cons, processLines_cons, h]

theorem processLines_drop_malformed (p bad : String) (post : List String)
    (hrule : isCodeownersRule bad = true) (hdir : isDirRule bad = false)
    (hlen : (splitN2 bad).length < 2) :
    processLines p (bad :: post) = processLines p post := by
  have hrw : rewriteCodeownersRule p bad = .ok "" := by
    rw [rewriteCodeownersRule_ok, if_neg (by simp [hdir])]
    unfold rewriteNonDirRule
    rw [if_pos hlen]
  rw [processLines_cons, if_pos hrule, hrw]
  obtain ⟨rs, hrs⟩ := processLines_never_errors p post
  rw [hrs]
  simp

theorem splitN2_length_pos (s : String) : 1 ≤ (splitN2 s).length := by
  unfold splitN2
  cases breakOnSpace s.data with
  | none => simp
  | some r => simp

theorem marker_isPrefixOf_iff (l : List Char) :
    codeownersCommentMarker.data.isPrefixOf l = true ↔ l.head? = some '#' := by
  cases l with
  | nil => simp [codeownersCommentMarker, List.isPrefixOf]
  | cons c cs =>
    show (['#'].isPrefixOf (c :: cs)) = true ↔ some c = some '#'
    simp only [List.isPrefixOf, List.isPrefixOf_nil_left, Bool.and_true, Option.some_inj,
      beq_iff_eq]
    exact eq_comm

/-! ## Supporting lemmas: path joining -/

theorem string_data_inj {x y : String} (h : x.data = y.data) : x = y := by
  cases x
  cases y
  cases h
  rfl

theorem goSplitChar_of_no_sep (sep : Char) (cs : List Char)
    (h : cs.all (fun c => !(c == sep)) = true) : goSplitChar sep cs = [cs] := by
  induction cs with
  | nil => rfl
  | cons c cs ih =>
    simp only [List.all_cons, Bool.and_eq_true] at h
    have hc : (c == sep) = false := by simpa using h.1
    rw [goSplitChar, hc]
    simp [ih h.2]

theorem cleanStack_cons (rooted : Bool) (stack : List (List Char)) (c : List Char)
    (cs : List (List Char)) :
    cleanStack rooted stack (c :: cs) =
      if c = [] ∨ c = ['.'] then cleanStack rooted stack cs
      else if c = ['.', '.'] then
        match stack with
        | [] =>
          if rooted then cleanStack rooted [] cs
          else cleanStack rooted [['.', '.']] cs
        | top :: rest =>
          if rooted = false ∧ top = ['.', '.'] then cleanStack rooted (['.', '.'] :: top :: rest) cs
          else cleanStack rooted rest cs
      else cleanStack rooted (c :: stack) cs := rfl

theorem filepathJoin_root_dot (x : String) (hne : x ≠ "")
    (hslash : x.data.all (fun c => !(c == '/')) = true)
    (hdot : x ≠ ".") (hdotdot : x ≠ "..") :
    filepathJoin "/." x = "/" ++ x := by
  obtain ⟨d⟩ := x
  have hdne : d ≠ [] := fun h => hne (string_data_inj (by rw [h]))
  have hddot : d ≠ ['.'] := fun h => hdot (string_data_inj (by rw [h]))
  have hddd : d ≠ ['.', '.'] := fun h => hdotdot (string_data_inj (by rw [h]))
  have hsplit : goSplitChar '/' ('/' :: '.' :: '/' :: d) = [[], ['.'], d] := by
    show ([] : List Char) :: ['.'] :: goSplitChar '/' d = [[], ['.'], d]
    rw [goSplitChar_of_no_sep '/' d hslash]
  show clean ("/." ++ "/" ++ ⟨d⟩) = "/" ++ ⟨d⟩
  have heq : ("/." ++ "/" ++ (⟨d⟩ : String)) = ⟨'/' :: '.' :: '/' :: d⟩ := rfl
  rw [heq]
  show (⟨'/' :: joinComps ((cleanStack true [] (goSplitChar '/' ('/' :: '.' :: '/' :: d))).reverse)⟩ :
    String) = "/" ++ ⟨d⟩
  rw [hsplit, cleanStack_cons, if_pos (Or.inl rfl), cleanStack_cons, if_pos (Or.inr rfl),
    cleanStack_cons, if_neg (by simp [hdne, hddot]), if_neg hddd]
  rfl

/-! ## Claim theorems -/

/-- C1 is refuted at a tab-separated line: `isDirRule` splits only at the
space character, so `"main.go\t@org/gopher"` stays a single token which
contains `@` and the line is classified as a directory rule, while the
claim's whitespace-run split would make the first token `"main.go"`,
which contains no `@`. -/
theorem c1_counterexample :
    isDirRule "main.go\t@org/gopher" = true ∧
    (specFirstToken "main.go\t@org/gopher").data.contains '@' = false := by
  exact ⟨by decide, by decide⟩

/-- C1 (amended): for every candidate rule line, classification splits the
line at the first space character (U+0020) into at most two tokens, and
the line is a directory ownership rule exactly when the first token —
everything before the first space — contains `@`; whitespace characters
other than the space do not separate tokens. -/
theorem c1_split_and_dir_test (rule : String) :
    (splitN2 rule).length ≤ 2 ∧
    isDirRule rule = (rule.data.takeWhile (fun c => !(c == ' '))).contains '@' := by
  refine ⟨splitN2_length_le rule, ?_⟩
  have h0 : isDirRule rule =
      (decide (1 ≤ (splitN2 rule).length) && ((splitN2 rule).headD "").data.contains '@') := rfl
  have h1 : decide (1 ≤ (splitN2 rule).length) = true := by
    simpa using splitN2_length_pos rule
  rw [h0, h1, splitN2_head]
  simp

/-- C2: for every directory ownership rule (first token contains `@`) and
scope prefix `p`, the rewritten rule is the scope prefix — or `*` when the
scope prefix is `/.` — followed by a space and the unchanged original
line. -/
theorem c2_dir_rule_rewrite (p rule : String) (h : isDirRule rule = true) :
    rewriteCodeownersRule p rule = .ok ((if p = "/." then "*" else p) ++ " " ++ rule) := by
  rw [rewriteCodeownersRule_ok, if_pos h]
  rfl

/-- Witness for C2 at the spec's Root example: `@org/admin` at scope `/.`
rewrites to `* @org/admin`. -/
theorem c2_dir_rule_rewrite_witness :
    isDirRule "@org/admin" = true ∧
    rewriteCodeownersRule "/." "@org/admin" = .ok "* @org/admin" := by
  refine ⟨by decide, ?_⟩
  rw [c2_dir_rule_rewrite "/." "@org/admin" (by decide)]
  rfl

/-- C4 is refuted at a line with leading whitespace before `#`:
`isCodeownersRule` only tests whether the line literally starts with the
comment marker, so `" # hello"` is processed as a candidate rule and even
contributes a rewritten rule, while the claim says it is skipped as a
comment and contributes none. -/
theorem c4_counterexample :
    isCodeownersRule " # hello" = true ∧
    processLines "/src" [" # hello"] = .ok ["/src # hello"] := by
  exact ⟨by decide, by rfl⟩

/-- C4 (amended): a line is skipped as a comment exactly when its first
character is `#` (leading whitespace defeats the comment test), a line is
skipped as blank exactly when it trims to the empty string, and every
skipped line contributes no rewritten rule. -/
theorem c4_line_skipping (line p : String) (pre post : List String) :
    (isCodeownersRule line = false ↔
      (goTrimSpace line = "" ∨ line.data.head? = some '#')) ∧
    (isCodeownersRule line = false →
      processLines p (pre ++ line :: post) = processLines p (pre ++ post)) := by
  constructor
  · have h : isCodeownersRule line = false ↔
        ((goTrimSpace line == "") = true ∨
          codeownersCommentMarker.data.isPrefixOf line.data = true) := by
      unfold isCodeownersRule
      cases h1 : (goTrimSpace line == "") <;>
        cases h2 : codeownersCommentMarker.data.isPrefixOf line.data <;> simp [h1, h2]
    rw [h, marker_isPrefixOf_iff]
    simp
  · intro h
    induction pre with
    | nil => simpa using processLines_skip p line post h
    | cons x xs ih => simpa using processLines_cons_congr p x _ _ ih

/-- Witness for C4 (amended) at a comment line inside a file. -/
theorem c4_line_skipping_witness :
    (isCodeownersRule "# note" = false ↔
      (goTrimSpace "# note" = "" ∨ ("# note").data.head? = some '#')) ∧
    processLines "/src" (["main.go @u"] ++ "# note" :: []) =
      processLines "/src" (["main.go @u"] ++ []) := by
  exact ⟨(c4_line_skipping "# note" "/src" ["main.go @u"] []).1,
    (c4_line_skipping "# note" "/src" ["main.go @u"] []).2 (by decide)⟩

/-- C6: rewriting the lines of a rule file never produces an error, and a
malformed file/glob rule line (no `@` in its only token, fewer than two
tokens) is silently dropped: removing it from the file leaves the result
of processing unchanged, so all other lines contribute their rewritten
rules in input order. -/
theorem c6_malformed_line_resilience :
    (∀ p lines, ∃ rs, processLines p lines = Except.ok rs) ∧
    (∀ p bad pre post, isCodeownersRule bad = true → isDirRule bad = false →
      (splitN2 bad).length < 2 →
      processLines p (pre ++ bad :: post) = processLines p (pre ++ post)) := by
  refine ⟨processLines_never_errors, ?_⟩
  intro p bad pre post h1 h2 h3
  induction pre with
  | nil => simpa using processLines_drop_malformed p bad post h1 h2 h3
  | cons x xs ih => simpa using processLines_cons_congr p x _ _ ih

/-- Witness for C6 at the spec's example: one well-formed line and one
owner-less line yield exactly the one rewritten rule of the well-formed
line, with no error. -/
theorem c6_malformed_line_resilience_witness :
    processLines "/src" (["main.go @org/gopher"] ++ "orphan.txt" :: []) =
      processLines "/src" (["main.go @org/gopher"] ++ []) ∧
    processLines "/src" ["main.go @org/gopher"] = .ok ["/src/main.go @org/gopher"] := by
  exact ⟨c6_malformed_line_resilience.2 "/src" "orphan.txt" ["main.go @org/gopher"] []
    (by decide) (by decide) (by decide), by rfl⟩

/-- C9: when the walk completes without error but produced zero rewritten
rules, `main` raises the fatal empty-result error and emits no output
text. -/
theorem c9_empty_result_fatal (res : Except String (List String)) (h : res = .ok []) :
    mainAfterWalk res = .error "no CODEOWNER rules found" ∧
    ∀ out, mainAfterWalk res ≠ .ok out := by
  subst h
  refine ⟨rfl, ?_⟩
  intro out hout
  simp [mainAfterWalk] at hout

/-- Witness for C9 at the empty rule list. -/
theorem c9_empty_result_fatal_witness :
    mainAfterWalk (.ok []) = .error "no CODEOWNER rules found" :=
  (c9_empty_result_fatal (.ok []) rfl).1

/-- C10: `..` components in a file/glob rule target are resolved by the
path join, letting the rewritten target climb above the rule file's scope;
no containment check is performed. At scope `/src` the target `../main.go`
rewrites to `/main.go`, which is outside `/src`. -/
theorem c10_dotdot_escapes_scope :
    rewriteCodeownersRule "/src" "../main.go @org/gopher" = .ok "/main.go @org/gopher" ∧
    rewriteCodeownersRule "/src/dir" "../../other.go @org/user" = .ok "/other.go @org/user" ∧
    ("/src".data.isPrefixOf "/main.go".data) = false := by
  exact ⟨rfl, rfl, by decide⟩

/-- C3: a well-formed file/glob rule — a nonempty, whitespace-free first
token `t` without `@`, a space, and an owner remainder — rewrites at scope
prefix `p` to the path join of `p` and `t`, a space, and the trimmed
remainder; and the join maps a plain filename `x` at the root scope `/.`
to `/x`. -/
theorem c3_file_rule_rewrite (p t rest x : String)
    (_hne : t ≠ "") (hws : t.data.all (fun c => !(goIsSpace c)) = true)
    (hat : t.data.contains '@' = false)
    (hxne : x ≠ "") (hxslash : x.data.all (fun c => !(c == '/')) = true)
    (hxdot : x ≠ ".") (hxdotdot : x ≠ "..") :
    rewriteCodeownersRule p (t ++ " " ++ rest) =
      .ok (filepathJoin p t ++ " " ++ goTrimSpace rest) ∧
    filepathJoin "/." x = "/" ++ x := by
  refine ⟨?_, filepathJoin_root_dot x hxne hxslash hxdot hxdotdot⟩
  have hsp : t.data.all (fun c => !(c == ' ')) = true := by
    rw [List.all_eq_true] at hws ⊢
    intro c hc
    have h := hws c hc
    simp only [Bool.not_eq_true'] at h ⊢
    cases hcs : (c == ' ') with
    | false => rfl
    | true =>
      have hc' : c = ' ' := by simpa using hcs
      rw [hc'] at h
      simp [goIsSpace] at h
  have hsplit := splitN2_of_append t rest hsp
  have hdir : isDirRule (t ++ " " ++ rest) = false := by
    have h0 : isDirRule (t ++ " " ++ rest) =
        (decide (1 ≤ (splitN2 (t ++ " " ++ rest)).length) &&
          ((splitN2 (t ++ " " ++ rest)).headD "").data.contains '@') := rfl
    rw [h0, hsplit]
    simpa using hat
  rw [rewriteCodeownersRule_ok, if_neg (by simp [hdir])]
  unfold rewriteNonDirRule
  rw [hsplit]
  rw [if_neg (by simp)]
  show Except.ok (filepathJoin p (goTrimSpace t) ++ " " ++ goTrimSpace rest) =
    Except.ok (filepathJoin p t ++ " " ++ goTrimSpace rest)
  rw [goTrimSpace_of_all t hws]

/-- Witness for C3 at the spec's example: `main.go @org/gopher` at scope
`/src/dir2` rewrites to `/src/dir2/main.go @org/gopher`, and the join of
`/.` with `main.go` is `/main.go`. -/
theorem c3_file_rule_rewrite_witness :
    rewriteCodeownersRule "/src/dir2" ("main.go" ++ " " ++ "@org/gopher") =
      .ok "/src/dir2/main.go @org/gopher" ∧
    filepathJoin "/." "main.go" = "/" ++ "main.go" := by
  have h := c3_file_rule_rewrite "/src/dir2" "main.go" "@org/gopher" "main.go"
    (by decide) (by decide) (by decide) (by decide) (by decide) (by decide) (by decide)
  refine ⟨?_, h.2⟩
  rw [h.1]
  rfl

/-! ## Supporting lemmas: the traversal -/

theorem walkQueueF_nil (ig : Option GitIgnore) (fuel : Nat) : walkQueueF ig fuel [] = [] := by
  cases fuel <;> rfl

theorem walkQueueF_zero (ig : Option GitIgnore) (q : List (String × List (String × FsNode))) :
    walkQueueF ig 0 q = [] := by
  cases q <;> rfl

theorem walkQueueF_cons (ig : Option GitIgnore) (fuel : Nat) (p : String)
    (es : List (String × FsNode)) (rest : List (String × List (String × FsNode))) :
    walkQueueF ig (fuel + 1) ((p, es) :: rest) =
      if shouldIgnoreDir ig p then walkQueueF ig fuel rest
      else dirYields p es ++ walkQueueF ig fuel (rest ++ dirChildren p es) := rfl

theorem mem_dirYields_no_suffix (p : String) (es : List (String × FsNode)) (pc : String × String)
    (h : pc ∈ dirYields p es) : goHasSuffix pc.1 generatedFileName = false := by
  unfold dirYields at h
  rw [List.mem_filterMap] at h
  obtain ⟨⟨name, node⟩, _, he⟩ := h
  unfold yieldOfEntry at he
  cases node with
  | dir ces => simp [isCodeownersFile] at he
  | file content =>
    by_cases h1 : isCodeownersFile (name, FsNode.file content) = true
    · rw [if_pos h1] at he
      by_cases h2 : goHasSuffix (filepathJoin p name) generatedFileName = true
      · simp only [h2, if_true] at he
        cases he
      · simp only [h2, if_false] at he
        have hpc : pc = (filepathJoin p name, content) := by
          simpa using he.symm
        rw [hpc]
        simpa using h2
    · rw [if_neg h1] at he
      cases he

theorem mem_walkQueueF_no_suffix (ig : Option GitIgnore) (fuel : Nat)
    (q : List (String × List (String × FsNode))) (pc : String × String)
    (h : pc ∈ walkQueueF ig fuel q) : goHasSuffix pc.1 generatedFileName = false := by
  induction fuel generalizing q with
  | zero =>
    rw [walkQueueF_zero] at h
    cases h
  | succ fuel ih =>
    cases q with
    | nil =>
      rw [walkQueueF_nil] at h
      cases h
    | cons a rest =>
      obtain ⟨p, es⟩ := a
      rw [walkQueueF_cons] at h
      by_cases hig : shouldIgnoreDir ig p = true
      · rw [if_pos hig] at h
        exact ih _ h
      · rw [if_neg hig] at h
        rcases List.mem_append.mp h with h | h
        · exact mem_dirYields_no_suffix p es pc h
        · exact ih _ h

/-- C5 is refuted at a nested `.github` directory: the skip test is a
suffix test on the whole path, so a `CODEOWNERS` file inside `sub/.github`
is silently skipped (only `x/CODEOWNERS` is yielded), while the claim says
a reserved-named file at any location other than the root `.github` is
yielded and processed. -/
theorem c5_counterexample :
    walkCodeownersFiles "/repo"
      [("sub", .dir [(".github", .dir [("CODEOWNERS", .file "@org/user")])]),
       ("x", .dir [("CODEOWNERS", .file "@org/user")])] none
      = [("/repo/x/CODEOWNERS", "@org/user")] := rfl

/-- C5 (amended): the traversal skips a discovered `CODEOWNERS` file
exactly when its path ends with `.github/CODEOWNERS`; this excludes the
reserved output file directly under Root but equally any `CODEOWNERS`
inside a directory named `.github` at any depth. Every yielded rule file
lacks that suffix; a top-level `.github/CODEOWNERS` is skipped while a
sibling `CODEOWNERS` is still yielded. -/
theorem c5_output_location_skipping :
    (∀ root entries ignore pc, pc ∈ walkCodeownersFiles root entries ignore →
      goHasSuffix pc.1 generatedFileName = false) ∧
    walkCodeownersFiles "/repo"
      [(".github", .dir [("CODEOWNERS", .file "old")]),
       ("CODEOWNERS", .file "@org/admin")] none = [("/repo/CODEOWNERS", "@org/admin")] :=
  ⟨fun _ _ _ pc h => mem_walkQueueF_no_suffix _ _ _ pc h, rfl⟩

/-- Witness for C5 (amended): the file yielded in the concrete run indeed
lacks the reserved suffix. -/
theorem c5_output_location_skipping_witness :
    ("/repo/CODEOWNERS", "@org/admin") ∈ walkCodeownersFiles "/repo"
      [(".github", .dir [("CODEOWNERS", .file "old")]),
       ("CODEOWNERS", .file "@org/admin")] none ∧
    goHasSuffix "/repo/CODEOWNERS" generatedFileName = false := by
  have hmem : ("/repo/CODEOWNERS", "@org/admin") ∈ walkCodeownersFiles "/repo"
      [(".github", .dir [("CODEOWNERS", .file "old")]),
       ("CODEOWNERS", .file "@org/admin")] none := by
    show ("/repo/CODEOWNERS", "@org/admin") ∈ [("/repo/CODEOWNERS", "@org/admin")]
    exact List.mem_singleton.mpr rfl
  exact ⟨hmem, c5_output_location_skipping.1 "/repo" _ none _ hmem⟩

/-- C7 is refuted when Root itself is named `.git`: the `.git` name test
runs before the root exemption, so a Root named `.git` is pruned and none
of its entries are listed, while the claim says Root's entries are always
listed regardless of Root's directory name. -/
theorem c7_counterexample :
    filepathBase "/repo/.git" = ".git" ∧
    walkCodeownersFiles "/repo/.git" [("CODEOWNERS", .file "@org/user")] none = [] :=
  ⟨rfl, rfl⟩

/-- C7 (amended): the Ignore Predicate never prunes the directory it was
built from (the matcher's base, i.e. Root) and a missing matcher prunes
nothing, so Root is exempt from ignore-based pruning — but the literal
`.git` name check runs first and applies at every depth, Root included:
any directory whose base name is `.git` is always pruned, independent of
the Ignore Predicate. -/
theorem c7_root_exempt_git_always_pruned :
    (∀ ignore root, (ignore = none ∨ ∃ ig, ignore = some ig ∧ ig.base = root) →
      filepathBase root ≠ ".git" → shouldIgnoreDir ignore root = false) ∧
    (∀ ignore path, filepathBase path = ".git" → shouldIgnoreDir ignore path = true) := by
  constructor
  · intro ignore root hig hbase
    unfold shouldIgnoreDir
    rw [if_neg hbase]
    rcases hig with h | ⟨ig, hig, hbaseeq⟩
    · rw [h]
    · rw [hig]
      show (if ig.base = root then false else _) = false
      rw [if_pos hbaseeq]
  · intro ignore path h
    unfold shouldIgnoreDir
    rw [if_pos h]

/-- Witness for C7 (amended): a root not named `.git` with no matcher is
not pruned; a directory named `.git` is pruned. -/
theorem c7_root_exempt_git_always_pruned_witness :
    shouldIgnoreDir none "/repo" = false ∧ shouldIgnoreDir none "/x/.git" = true :=
  ⟨c7_root_exempt_git_always_pruned.1 none "/repo" (Or.inl rfl) (by decide),
   c7_root_exempt_git_always_pruned.2 none "/x/.git" (by decide)⟩

/-! ## Supporting lemmas: the name order and the entry sort -/

theorem charListLt_cons (a b : Char) (as bs : List Char) :
    charListLt (a :: as) (b :: bs) = if a = b then charListLt as bs else decide (a < b) := rfl

theorem charListLt_nil_right : ∀ a, charListLt a [] = false
  | [] => rfl
  | _ :: _ => rfl

theorem charListLt_asymm : ∀ a b, charListLt a b = true → charListLt b a = false
  | [], [] => by simp [charListLt]
  | [], _ :: _ => fun _ => charListLt_nil_right _
  | _ :: _, [] => by simp [charListLt_nil_right]
  | a :: as, b :: bs => fun h => by
    rw [charListLt_cons] at h
    rw [charListLt_cons]
    by_cases hab : a = b
    · rw [if_pos hab] at h
      rw [if_pos hab.symm]
      exact charListLt_asymm as bs h
    · rw [if_neg hab] at h
      have hlt : a < b := of_decide_eq_true h
      rw [if_neg (fun hba => hab hba.symm)]
      simpa using lt_asymm hlt

theorem charListLt_trans : ∀ a b c, charListLt a b = true → charListLt b c = true →
    charListLt a c = true
  | _, [], _ => fun hab _ => by rw [charListLt_nil_right] at hab; cases hab
  | _, _ :: _, [] => fun _ hbc => by rw [charListLt_nil_right] at hbc; cases hbc
  | [], _ :: _, _ :: _ => fun _ _ => rfl
  | a :: as, b :: bs, c :: cs => fun hab hbc => by
    rw [charListLt_cons] at hab hbc
    rw [charListLt_cons]
    by_cases h1 : a = b
    · rw [if_pos h1] at hab
      by_cases h2 : b = c
      · rw [if_pos h2] at hbc
        rw [if_pos (h1.trans h2)]
        exact charListLt_trans as bs cs hab hbc
      · rw [if_neg h2] at hbc
        have hbc' : b < c := of_decide_eq_true hbc
        have hac : a < c := h1 ▸ hbc'
        rw [if_neg (ne_of_lt hac)]
        exact decide_eq_true hac
    · rw [if_neg h1] at hab
      have hab' : a < b := of_decide_eq_true hab
      by_cases h2 : b = c
      · have hac : a < c := h2 ▸ hab'
        rw [if_neg (ne_of_lt hac)]
        exact decide_eq_true hac
      · rw [if_neg h2] at hbc
        have hbc' : b < c := of_decide_eq_true hbc
        have hac : a < c := lt_trans hab' hbc'
        rw [if_neg (ne_of_lt hac)]
        exact decide_eq_true hac

theorem nameLt_asymm (a b : String) (h : nameLt a b = true) : nameLt b a = false :=
  charListLt_asymm a.data b.data h

theorem nameLt_trans (a b c : String) (h1 : nameLt a b = true) (h2 : nameLt b c = true) :
    nameLt a c = true :=
  charListLt_trans a.data b.data c.data h1 h2

theorem insertEntry_cons (e x : String × FsNode) (xs : List (String × FsNode)) :
    insertEntry e (x :: xs) =
      if nameLt e.1 x.1 then e :: x :: xs else x :: insertEntry e xs := rfl

theorem insertEntry_perm (e : String × FsNode) (l : List (String × FsNode)) :
    List.Perm (insertEntry e l) (e :: l) := by
  induction l with
  | nil => exact List.Perm.refl _
  | cons x xs ih =>
    rw [insertEntry_cons]
    by_cases h : nameLt e.1 x.1 = true
    · rw [if_pos h]
    · rw [if_neg h]
      exact (ih.cons x).trans (List.Perm.swap e x xs)

theorem sortEntries_perm (l : List (String × FsNode)) : List.Perm (sortEntries l) l := by
  induction l with
  | nil => exact List.Perm.refl _
  | cons e es ih =>
    show List.Perm (insertEntry e (sortEntries es)) (e :: es)
    exact (insertEntry_perm e (sortEntries es)).trans (ih.cons e)

theorem sortEntries_pairwise (l : List (String × FsNode)) :
    (sortEntries l).Pairwise (fun a b => nameLt b.1 a.1 = false) := by
  induction l with
  | nil => exact List.Pairwise.nil
  | cons e es ih =>
    show (insertEntry e (sortEntries es)).Pairwise (fun a b => nameLt b.1 a.1 = false)
    generalize hs : sortEntries es = s at ih
    clear hs es
    induction s with
    | nil => simp [insertEntry]
    | cons x xs ihs =>
      rw [insertEntry_cons]
      rcases List.pairwise_cons.mp ih with ⟨hx, hxs⟩
      by_cases h : nameLt e.1 x.1 = true
      · rw [if_pos h]
        refine List.pairwise_cons.mpr ⟨?_, ih⟩
        intro z hz
        rcases List.mem_cons.mp hz with hz | hz
        · rw [hz]
          exact nameLt_asymm e.1 x.1 h
        · by_cases hze : nameLt z.1 e.1 = true
          · have := nameLt_trans z.1 e.1 x.1 hze h
            rw [hx z hz] at this
            cases this
          · simpa using hze
      · rw [if_neg h]
        refine List.pairwise_cons.mpr ⟨?_, ihs hxs⟩
        intro z hz
        have hz' : z ∈ e :: xs := (insertEntry_perm e xs).mem_iff.mp hz
        rcases List.mem_cons.mp hz' with hz' | hz'
        · rw [hz']
          simpa using h
        · exact hx z hz'

/-! ## Supporting lemmas: sizes and canonical forms -/

theorem entriesSize_insertEntry (e : String × FsNode) (l : List (String × FsNode)) :
    entriesSize (insertEntry e l) = 1 + nodeSize e.2 + entriesSize l := by
  induction l with
  | nil => rfl
  | cons x xs ih =>
    rw [insertEntry_cons]
    by_cases h : nameLt e.1 x.1 = true
    · rw [if_pos h]
      rfl
    · rw [if_neg h]
      obtain ⟨s, n⟩ := x
      show 1 + nodeSize n + entriesSize (insertEntry e xs) = _
      rw [ih]
      obtain ⟨s', n'⟩ := e
      show 1 + nodeSize n + (1 + nodeSize n' + entriesSize xs) =
        1 + nodeSize n' + (1 + nodeSize n + entriesSize xs)
      omega

theorem entriesSize_sortEntries (l : List (String × FsNode)) :
    entriesSize (sortEntries l) = entriesSize l := by
  induction l with
  | nil => rfl
  | cons e es ih =>
    show entriesSize (insertEntry e (sortEntries es)) = _
    rw [entriesSize_insertEntry, ih]
    obtain ⟨s, n⟩ := e
    rfl

mutual
theorem nodeSize_canon : ∀ n, nodeSize (canon n) = nodeSize n
  | .file _ => rfl
  | .dir es => by
    show 1 + entriesSize (sortEntries (canonEntries es)) = 1 + entriesSize es
    rw [entriesSize_sortEntries, entriesSize_canonEntries es]

theorem entriesSize_canonEntries : ∀ l, entriesSize (canonEntries l) = entriesSize l
  | [] => rfl
  | (s, n) :: l => by
    show 1 + nodeSize (canon n) + entriesSize (canonEntries l) = 1 + nodeSize n + entriesSize l
    rw [nodeSize_canon n, entriesSize_canonEntries l]
end

theorem canonEntries_insertEntry (e : String × FsNode) (l : List (String × FsNode)) :
    canonEntries (insertEntry e l) = insertEntry (e.1, canon e.2) (canonEntries l) := by
  obtain ⟨s, n⟩ := e
  induction l with
  | nil => rfl
  | cons x xs ih =>
    obtain ⟨s', n'⟩ := x
    rw [insertEntry_cons]
    by_cases h : nameLt s s' = true
    · rw [if_pos h]
      show (s, canon n) :: (s', canon n') :: canonEntries xs =
        insertEntry (s, canon n) ((s', canon n') :: canonEntries xs)
      rw [insertEntry_cons, if_pos h]
    · rw [if_neg h]
      show (s', canon n') :: canonEntries (insertEntry (s, n) xs) =
        insertEntry (s, canon n) ((s', canon n') :: canonEntries xs)
      rw [insertEntry_cons, if_neg h, ih]

theorem canonEntries_sortEntries (l : List (String × FsNode)) :
    canonEntries (sortEntries l) = sortEntries (canonEntries l) := by
  induction l with
  | nil => rfl
  | cons e es ih =>
    obtain ⟨s, n⟩ := e
    show canonEntries (insertEntry (s, n) (sortEntries es)) =
      insertEntry (s, canon n) (sortEntries (canonEntries es))
    rw [canonEntries_insertEntry, ih]

theorem canonEntries_nil : canonEntries [] = [] := rfl

theorem canonEntries_cons (s : String) (n : FsNode) (l : List (String × FsNode)) :
    canonEntries ((s, n) :: l) = (s, canon n) :: canonEntries l := rfl

theorem canon_file (c : String) : canon (.file c) = .file c := rfl

theorem canon_dir (es : List (String × FsNode)) :
    canon (.dir es) = .dir (sortEntries (canonEntries es)) := rfl

theorem yieldOfEntry_dir (p s : String) (ces : List (String × FsNode)) :
    yieldOfEntry p (s, FsNode.dir ces) = none := rfl

theorem childOfEntry_dir (p s : String) (ces : List (String × FsNode)) :
    childOfEntry p (s, FsNode.dir ces) = some (filepathJoin p s, ces) := rfl

theorem childOfEntry_file (p s c : String) : childOfEntry p (s, FsNode.file c) = none := by
  unfold childOfEntry
  by_cases h : isCodeownersFile (s, FsNode.file c) = true
  · rw [if_pos h]
  · rw [if_neg h]

/-- Entry lists whose entry-wise canonical forms agree contribute the same
yields and queue-related children. -/
theorem filterMap_congr_of_canonEntries (p : String) (l₁ : List (String × FsNode)) :
    ∀ l₂, canonEntries l₁ = canonEntries l₂ →
      l₁.filterMap (yieldOfEntry p) = l₂.filterMap (yieldOfEntry p) ∧
      queueRel (l₁.filterMap (childOfEntry p)) (l₂.filterMap (childOfEntry p)) := by
  induction l₁ with
  | nil =>
    intro l₂ h
    cases l₂ with
    | nil => exact ⟨rfl, trivial⟩
    | cons y l₂ =>
      obtain ⟨s, n⟩ := y
      rw [canonEntries_nil, canonEntries_cons] at h
      cases h
  | cons x l₁ ih =>
    intro l₂ h
    obtain ⟨s, n⟩ := x
    cases l₂ with
    | nil =>
      rw [canonEntries_nil, canonEntries_cons] at h
      cases h
    | cons y l₂ =>
      obtain ⟨s', n'⟩ := y
      rw [canonEntries_cons, canonEntries_cons] at h
      injection h with h1 h2
      injection h1 with hs hn
      subst hs
      obtain ⟨hy, hr⟩ := ih l₂ h2
      cases n with
      | file c =>
        cases n' with
        | file c' =>
          have hcc : c = c' := by
            rw [canon_file, canon_file] at hn
            injection hn
          subst hcc
          constructor
          · cases hEval : yieldOfEntry p (s, FsNode.file c) with
            | none =>
              rw [List.filterMap_cons_none hEval, List.filterMap_cons_none hEval]
              exact hy
            | some b =>
              rw [List.filterMap_cons_some hEval, List.filterMap_cons_some hEval, hy]
          · rw [List.filterMap_cons_none (childOfEntry_file p s c),
              List.filterMap_cons_none (childOfEntry_file p s c)]
            exact hr
        | dir ces' =>
          rw [canon_file, canon_dir] at hn
          cases hn
      | dir ces =>
        cases n' with
        | file c' =>
          rw [canon_dir, canon_file] at hn
          cases hn
        | dir ces' =>
          have hlst : listingEquiv ces ces' := by
            rw [canon_dir, canon_dir] at hn
            injection hn
          constructor
          · rw [List.filterMap_cons_none (yieldOfEntry_dir p s ces),
              List.filterMap_cons_none (yieldOfEntry_dir p s ces')]
            exact hy
          · rw [List.filterMap_cons_some (childOfEntry_dir p s ces),
              List.filterMap_cons_some (childOfEntry_dir p s ces')]
            exact ⟨rfl, hlst, hr⟩

theorem queueRel_append : ∀ q₁ q₂ r₁ r₂ : List (String × List (String × FsNode)),
    queueRel q₁ q₂ → queueRel r₁ r₂ → queueRel (q₁ ++ r₁) (q₂ ++ r₂)
  | [], [], _, _, _, hr => hr
  | [], (_, _) :: _, _, _, hq, _ => hq.elim
  | (_, _) :: _, [], _, _, hq, _ => hq.elim
  | (_, _) :: q₁, (_, _) :: q₂, r₁, r₂, hq, hr =>
    ⟨hq.1, hq.2.1, queueRel_append q₁ q₂ r₁ r₂ hq.2.2 hr⟩

/-- The queue loop visits queue-related queues identically: the paths are
the same, each directory's sorted listing produces the same yields, and
the enqueued children remain queue-related. -/
theorem walkQueueF_congr (ig : Option GitIgnore) :
    ∀ fuel q₁ q₂, queueRel q₁ q₂ → walkQueueF ig fuel q₁ = walkQueueF ig fuel q₂ := by
  intro fuel
  induction fuel with
  | zero =>
    intro q₁ q₂ _
    rw [walkQueueF_zero, walkQueueF_zero]
  | succ fuel ih =>
    intro q₁ q₂ hq
    cases q₁ with
    | nil =>
      cases q₂ with
      | nil => rfl
      | cons y q₂ =>
        obtain ⟨p, es⟩ := y
        exact hq.elim
    | cons x q₁ =>
      obtain ⟨p₁, es₁⟩ := x
      cases q₂ with
      | nil => exact hq.elim
      | cons y q₂ =>
        obtain ⟨p₂, es₂⟩ := y
        obtain ⟨hp, hlst, hrest⟩ := hq
        subst hp
        rw [walkQueueF_cons, walkQueueF_cons]
        have hcanon : canonEntries (sortEntries es₁) = canonEntries (sortEntries es₂) := by
          rw [canonEntries_sortEntries, canonEntries_sortEntries]
          exact hlst
        obtain ⟨hy, hch⟩ :=
          filterMap_congr_of_canonEntries p₁ (sortEntries es₁) (sortEntries es₂) hcanon
        by_cases hig : shouldIgnoreDir ig p₁ = true
        · rw [if_pos hig, if_pos hig]
          exact ih q₁ q₂ hrest
        · rw [if_neg hig, if_neg hig]
          have hyq : dirYields p₁ es₁ = dirYields p₁ es₂ := hy
          rw [hyq]
          congr 1
          exact ih _ _ (queueRel_append q₁ q₂ _ _ hrest hch)

theorem entriesSize_of_listingEquiv {es₁ es₂ : List (String × FsNode)}
    (h : listingEquiv es₁ es₂) : entriesSize es₁ = entriesSize es₂ := by
  have h1 := congrArg entriesSize h
  rw [entriesSize_sortEntries, entriesSize_sortEntries, entriesSize_canonEntries,
    entriesSize_canonEntries] at h1
  exact h1

theorem walkCodeownersFiles_congr (root : String) (es₁ es₂ : List (String × FsNode))
    (ig : Option GitIgnore) (h : listingEquiv es₁ es₂) :
    walkCodeownersFiles root es₁ ig = walkCodeownersFiles root es₂ ig := by
  unfold walkCodeownersFiles
  rw [entriesSize_of_listingEquiv h]
  exact walkQueueF_congr ig _ _ _ ⟨rfl, h, trivial⟩

/-- C8: the pipeline is a pure function of the file tree and the ignore
matcher, independent of the filesystem's native listing order: trees with
the same canonical form (the same files and directories, with each
directory's listing in possibly different native orders — in particular
the unchanged tree itself) produce the identical ordered rule list and
byte-identical output text; and each directory's entries are visited in
ascending byte/codepoint name order (the sorted listing is an ascending
permutation of the native listing). -/
theorem c8_pipeline_determinism :
    (∀ root entries₁ entries₂ ignore, canon (.dir entries₁) = canon (.dir entries₂) →
      RewriteCodeownersRules root entries₁ ignore = RewriteCodeownersRules root entries₂ ignore ∧
      (RewriteCodeownersRules root entries₁ ignore).map GenerateCodeownersFile =
        (RewriteCodeownersRules root entries₂ ignore).map GenerateCodeownersFile) ∧
    (∀ es, List.Pairwise (fun a b => nameLt b.1 a.1 = false) (sortEntries es) ∧
      List.Perm (sortEntries es) es) := by
  constructor
  · intro root es₁ es₂ ig h
    have hlst : listingEquiv es₁ es₂ := by
      rw [canon_dir, canon_dir] at h
      injection h
    have hwalk := walkCodeownersFiles_congr root es₁ es₂ ig hlst
    have hrw : RewriteCodeownersRules root es₁ ig = RewriteCodeownersRules root es₂ ig := by
      unfold RewriteCodeownersRules
      rw [hwalk]
    exact ⟨hrw, by rw [hrw]⟩
  · intro es
    exact ⟨sortEntries_pairwise es, sortEntries_perm es⟩

/-- Witness for C8: two native listings of the same directory, in
different orders, produce identical pipeline results. -/
theorem c8_pipeline_determinism_witness :
    canon (FsNode.dir [("b", FsNode.file ""), ("CODEOWNERS", FsNode.file "@org/user")]) =
      canon (FsNode.dir [("CODEOWNERS", FsNode.file "@org/user"), ("b", FsNode.file "")]) ∧
    RewriteCodeownersRules "/repo"
        [("b", FsNode.file ""), ("CODEOWNERS", FsNode.file "@org/user")] none =
      RewriteCodeownersRules "/repo"
        [("CODEOWNERS", FsNode.file "@org/user"), ("b", FsNode.file "")] none :=
  ⟨rfl, (c8_pipeline_determinism.1 "/repo" _ _ none rfl).1⟩

end Codeowners
